import Mathlib

/-!
Verification of the BookPipeline story-builder core against its specification.

The development shallowly embeds the Python modules
`story_builder/turn_processor.py`, `story_builder/story_writer.py` and
`story_builder/editor.py`.  Python values that flow through the code are
modelled by the inductive type `PyVal` (None, int, str, list, dict with
string keys — the shapes the repository actually stores in its JSON
documents).  File persistence (`Project.read_json`/`save_json`) is a
whole-document read/rewrite boundary, modelled as in-memory state; the
interactive dialog and the generation backend are modelled as oracles.
-/

namespace BookPipeline

/-- Model of Python `str.isspace` / the characters stripped by `str.strip()`:
ASCII whitespace, the C1 separators, and the Unicode space separators. -/
def pyIsSpace (c : Char) : Bool :=
  c = ' ' || (9 ≤ c.toNat && c.toNat ≤ 13) || (28 ≤ c.toNat && c.toNat ≤ 31) ||
  c.toNat = 133 || c.toNat = 160 || c.toNat = 5760 ||
  (8192 ≤ c.toNat && c.toNat ≤ 8202) || c.toNat = 8232 || c.toNat = 8233 ||
  c.toNat = 8239 || c.toNat = 8287 || c.toNat = 12288

/-- Model of Python `str.strip()` (no arguments): drop leading and trailing
whitespace characters. -/
def pyStrip (s : String) : String :=
  String.mk (((s.data.dropWhile pyIsSpace).reverse.dropWhile pyIsSpace).reverse)

/-- Embedded Python values, covering the shapes the repository stores and
passes around: `None`, integers, strings, lists, and dicts with string keys. -/
inductive PyVal where
  | none : PyVal
  | int : Int → PyVal
  | str : String → PyVal
  | list : List PyVal → PyVal
  | dict : List (String × PyVal) → PyVal
deriving Repr

/-- Model of Python truthiness for embedded values (`bool(v)` is false for
`None`, `0`, `""`, `[]`, `{}`). -/
def pyFalsy : PyVal → Bool
  | .none => true
  | .int n => n == 0
  | .str s => s == ""
  | .list xs => xs.isEmpty
  | .dict kvs => kvs.isEmpty

/-- Model of Python `a or b` restricted to embedded values. -/
def pyOr (a b : PyVal) : PyVal := if pyFalsy a then b else a

/-- Single-quote character, used by the model of Python `repr` on strings. -/
def sq : String := String.singleton (Char.ofNat 39)

/-- Model of Python `repr` quoting for strings: single quotes by default,
double quotes when the string contains a single quote but no double quote.
(Escape sequences inside the quotes are not modelled; no repository input
exercises them.) -/
def pyQuote (s : String) : String :=
  if s.data.contains (Char.ofNat 39) && !(s.data.contains (Char.ofNat 34)) then
    "\"" ++ s ++ "\""
  else
    sq ++ s ++ sq

mutual

/-- Model of Python `repr` on embedded values. -/
def pyRepr : PyVal → String
  | .none => "None"
  | .int n => toString n
  | .str s => pyQuote s
  | .list xs => "[" ++ pyReprElems xs ++ "]"
  | .dict kvs => "\x7b" ++ pyReprPairs kvs ++ "\x7d"

/-- Comma-joined `repr`s of list elements. -/
def pyReprElems : List PyVal → String
  | [] => ""
  | [v] => pyRepr v
  | v :: w :: rest => pyRepr v ++ ", " ++ pyReprElems (w :: rest)

/-- Comma-joined `repr`s of dict items. -/
def pyReprPairs : List (String × PyVal) → String
  | [] => ""
  | [(k, v)] => pyQuote k ++ ": " ++ pyRepr v
  | (k, v) :: p :: rest => pyQuote k ++ ": " ++ pyRepr v ++ ", " ++ pyReprPairs (p :: rest)

end

/-- Model of Python `str()` on embedded values. -/
def pyToStr : PyVal → String
  | .str s => s
  | v => pyRepr v

/-- First value stored under a key (Python `dict` lookup; repository dicts
have unique keys). -/
def dictGet? {α : Type} : List (String × α) → String → Option α
  | [], _ => Option.none
  | (k, v) :: rest, key => if k = key then some v else dictGet? rest key

/-- Python `dict.get(key, default)`. -/
def dictGetD {α : Type} (kvs : List (String × α)) (key : String) (d : α) : α :=
  (dictGet? kvs key).getD d

/-- Python `key in dict`. -/
def dictHas {α : Type} (kvs : List (String × α)) (key : String) : Bool :=
  (dictGet? kvs key).isSome

/-- Python `dict[key] = v`: replace in place if the key exists, else append. -/
def dictSet {α : Type} : List (String × α) → String → α → List (String × α)
  | [], key, v => [(key, v)]
  | (k, w) :: rest, key, v =>
      if k = key then (k, v) :: rest else (k, w) :: dictSet rest key v

/-- Python `dict.setdefault(key, v)` (returning the updated dict). -/
def dictSetDefault {α : Type} (kvs : List (String × α)) (key : String) (v : α) :
    List (String × α) :=
  if dictHas kvs key then kvs else kvs ++ [(key, v)]

/-- Keys of a dict in insertion order (Python `list(d)`). -/
def dictKeys {α : Type} (kvs : List (String × α)) : List String := kvs.map Prod.fst

/-- Duplicate removal keeping first occurrences (the key set of a Python
`set(...)` union, before sorting). -/
def dedupStr : List String → List String
  | [] => []
  | x :: rest => x :: (dedupStr rest).filter (fun y => y ≠ x)

/-- Lexicographic code-point comparison of character lists (the order
Python uses to compare strings). -/
def listLtChar : List Char → List Char → Bool
  | [], [] => false
  | [], _ :: _ => true
  | _ :: _, [] => false
  | c :: cs, d :: ds =>
      if c.toNat < d.toNat then true
      else if d.toNat < c.toNat then false
      else listLtChar cs ds

/-- Model of Python string `<`. -/
def strLt (a b : String) : Bool := listLtChar a.data b.data

/-- Insert a string into a sorted list (ascending by `strLt`). -/
def insertSorted (x : String) : List String → List String
  | [] => [x]
  | y :: rest => if strLt y x then y :: insertSorted x rest else x :: y :: rest

/-- Model of Python `sorted` on strings (ascending code-point
lexicographic insertion sort). -/
def sortStrings : List String → List String
  | [] => []
  | x :: rest => insertSorted x (sortStrings rest)

/-- Model of Python `sep.join(parts)`. -/
def joinWith (sep : String) : List String → String
  | [] => ""
  | [x] => x
  | x :: y :: rest => x ++ sep ++ joinWith sep (y :: rest)

/-- Model of Python `int(str)` (sign plus decimal digits, surrounding
whitespace allowed); `Option.none` models `ValueError`. -/
def parsePyInt (s : String) : Option Int :=
  let t := (pyStrip s).data
  let core : Option (Bool × List Char) :=
    match t with
    | [] => Option.none
    | c :: rest =>
        if c = '-' then some (true, rest)
        else if c = '+' then some (false, rest)
        else some (false, t)
  match core with
  | Option.none => Option.none
  | some (neg, digits) =>
      if digits ≠ [] ∧ digits.all Char.isDigit then
        let n : Nat := digits.foldl (fun acc c => acc * 10 + (c.toNat - 48)) 0
        some (if neg then -(n : Int) else (n : Int))
      else Option.none

/-- Model of Python `int(v)` on embedded values; `Option.none` models
`TypeError`/`ValueError`. -/
def pyToInt? : PyVal → Option Int
  | .int n => some n
  | .str s => parsePyInt s
  | _ => Option.none

/-!
Embedding of `story_builder/story_writer.py`.

`StoryWriter._split_large_entry` slices an oversized block into
`max_chunk_chars`-sized pieces, strips each piece, and drops blank pieces.
`StoryWriter._chunk_summaries` greedily accumulates blocks into chunks
joined with a blank line.  `StoryWriter.prepare_turn_summaries` renders
storyline turn records into text blocks.
-/

/-- Raw fixed-size slices taken by the `while` loop of
`StoryWriter._split_large_entry` before stripping (`text[start:end]` with
`end = min(start + max_chunk_chars, length)`).  The source loop never
terminates when `max_chunk_chars = 0`; the model then advances one
character at a time (no claim concerns that setting). -/
def rawSlices (B : Nat) : List Char → List String
  | [] => []
  | c :: rest =>
      String.mk ((c :: rest).take (max B 1)) ::
        rawSlices B ((c :: rest).drop (max B 1))
termination_by cs => cs.length
decreasing_by
  simp only [List.length_drop, List.length_cons]
  omega

/-- Embedding of `StoryWriter._split_large_entry`: strip each raw slice and
keep the non-empty results. -/
def splitLargeEntry (B : Nat) (text : String) : List String :=
  ((rawSlices B text.data).map pyStrip).filter (fun p => p ≠ "")

/-- Loop of `StoryWriter._chunk_summaries`: `chunks` are the flushed chunks
so far, `current` the accumulated blocks of the open chunk, `currentLen`
the running `current_len` counter (each block contributes its length plus
2). -/
def chunkGo (B : Nat) : List String → List String → List String → Nat → List String
  | [], chunks, current, _ =>
      chunks ++ (if current.isEmpty then [] else [joinWith "\n\n" current])
  | s :: rest, chunks, current, currentLen =>
      if pyStrip s = "" then chunkGo B rest chunks current currentLen
      else if (pyStrip s).length > B then
        chunkGo B rest
          ((chunks ++ (if current.isEmpty then [] else [joinWith "\n\n" current])) ++
            splitLargeEntry B (pyStrip s)) [] 0
      else
        if !current.isEmpty ∧
            currentLen + ((pyStrip s).length + (if current.isEmpty then 0 else 2)) > B then
          chunkGo B rest (chunks ++ [joinWith "\n\n" current]) [pyStrip s]
            ((pyStrip s).length + 2)
        else
          chunkGo B rest chunks (current ++ [pyStrip s]) (currentLen + (pyStrip s).length + 2)

/-- Embedding of `StoryWriter._chunk_summaries` with chunk budget `B`
(`max_chunk_chars`). -/
def chunkSummaries (B : Nat) (summaries : List String) : List String :=
  chunkGo B summaries [] [] 0

/-- Embedding of `StoryWriter._format_mapping`: sorted keys, paired with
their trimmed non-empty texts, joined after a pluralised label. -/
def formatMapping (label : String) (kvs : List (String × PyVal)) : String :=
  let parts := (sortStrings (dictKeys kvs)).filterMap (fun key =>
    let value := (dictGet? kvs key).getD PyVal.none
    let text := pyStrip (pyToStr (pyOr value (.str "")))
    let keyText := pyStrip (pyToStr (pyOr (.str key) (.str "")))
    if text ≠ "" ∧ keyText ≠ "" then some (keyText ++ ": " ++ text) else Option.none)
  if parts.isEmpty then "" else label ++ "s: " ++ joinWith "; " parts

/-- Render one turn record as the lines of its block, given its 1-based
position `index` in the input sequence; `Option.none` when the entry is
skipped (not a dict, or blank content). -/
def renderTurn (index : Nat) (turn : PyVal) : Option String :=
  match turn with
  | .dict kvs =>
      let content := pyStrip (pyToStr (pyOr (dictGetD kvs "content" (.str "")) (.str "")))
      if content = "" then Option.none
      else
        let lines := ["Turn " ++ toString index ++ ": " ++ content]
        let lines := lines ++
          (match dictGet? kvs "player_actions" with
           | some (.dict m) =>
               let t := formatMapping "Action" m
               if t ≠ "" then [t] else []
           | _ => [])
        let lines := lines ++
          (match dictGet? kvs "per_player_outcomes" with
           | some (.dict m) =>
               let t := formatMapping "Outcome" m
               if t ≠ "" then [t] else []
           | _ => [])
        let lines := lines ++
          (match dictGet? kvs "player_reflections" with
           | some (.dict m) =>
               let t := formatMapping "Reflection" m
               if t ≠ "" then [t] else []
           | _ => [])
        some (joinWith "\n" lines)
  | _ => Option.none

/-- Enumeration loop of `StoryWriter.prepare_turn_summaries`
(`enumerate(turns, start=index)`): every entry consumes an index, skipped
entries produce no block. -/
def prepareFrom (index : Nat) : List PyVal → List String
  | [] => []
  | t :: rest =>
      match renderTurn index t with
      | some block => block :: prepareFrom (index + 1) rest
      | Option.none => prepareFrom (index + 1) rest

/-- Embedding of `StoryWriter.prepare_turn_summaries`. -/
def prepareTurnSummaries (turns : List PyVal) : List String :=
  prepareFrom 1 turns

/-!
Embedding of `story_builder/turn_processor.py` together with the pieces of
`story_builder/storyline.py` it drives (`get_turns`, `update_turns`,
`save`).  The persistence boundary (`Project.read_json`/`save_json`,
whole-document semantics) is modelled by `TPState`: the parsed storyline
document plus the parsed per-character documents keyed by the raw player
name (`Project.character_path` embeds the name unchanged into the file
name).
-/

/-- Embedding of the module-level `_clean_text`. -/
def cleanText : PyVal → String
  | .none => ""
  | v => pyStrip (pyToStr v)

/-- Embedding of the module-level `_clean_sequence`.  Iterating a dict in
Python yields its keys; non-iterable values yield `[]`. -/
def cleanSequence : PyVal → List String
  | .none => []
  | .str s => ([PyVal.str s].map cleanText).filter (fun t => t ≠ "")
  | .list xs => (xs.map cleanText).filter (fun t => t ≠ "")
  | .dict kvs => ((kvs.map (fun kv => PyVal.str kv.1)).map cleanText).filter (fun t => t ≠ "")
  | .int _ => []

/-- Note-like keys scanned by `TurnProcessor._normalize_reflection`. -/
def noteKeys : List String := ["notes", "thoughts", "reflection"]

/-- Plan-like keys scanned by `TurnProcessor._normalize_reflection`. -/
def planKeys : List String := ["candidate_actions", "plans", "next_actions", "next_steps"]

/-- Embedding of `TurnProcessor._normalize_reflection`. -/
def normalizeReflection (payload : PyVal) : String × List String :=
  match payload with
  | .none => ("", [])
  | .dict kvs =>
      let notesSources := noteKeys.filterMap (fun key =>
        if dictHas kvs key then
          let text := cleanText (dictGetD kvs key PyVal.none)
          if text ≠ "" then some text else Option.none
        else Option.none)
      let notes := joinWith "\n\n" notesSources
      let candidates := planKeys.foldl (fun acc key =>
        if dictHas kvs key then acc ++ cleanSequence (dictGetD kvs key PyVal.none)
        else acc) []
      (notes, candidates)
  | .list xs => ("", cleanSequence (.list xs))
  | .str s => (cleanText (.str s), [])
  | .int n => (cleanText (.int n), [])

/-- Embedding of `TurnProcessor._normalize_mapping`: drop entries whose key
is blank after trimming, trim keys and values, `None`/empty input gives an
empty dict. -/
def normalizeMapping : Option (List (String × String)) → List (String × String)
  | Option.none => []
  | some kvs =>
      kvs.foldl (fun acc kv =>
        let cleanedKey := pyStrip kv.1
        if cleanedKey = "" then acc else dictSet acc cleanedKey (pyStrip kv.2)) []

/-- Embedding of `PlayerTurnRecord.to_dict` (via the dataclass constructor,
whose `candidate_actions or None` round-trips back to a plain list). -/
def recordToDict (turn : Nat) (action outcome globalSummary reflection : String)
    (candidateActions : List String) : PyVal :=
  .dict [("turn", .int turn), ("action", .str action), ("outcome", .str outcome),
         ("global_summary", .str globalSummary), ("reflection", .str reflection),
         ("candidate_actions", .list (candidateActions.map PyVal.str))]

/-- Stored character document for a player, defaulting to `\x7b\x7d` when
missing (`FileNotFoundError`), unreadable, or not a mapping — the opening
normalization of `TurnProcessor._load_player_state`. -/
def playerFileDict (chars : List (String × PyVal)) (player : String) :
    List (String × PyVal) :=
  match dictGet? chars player with
  | some (.dict kvs) => kvs
  | some _ => []
  | Option.none => []

/-- Closing `last_turn` coercion of `TurnProcessor._load_player_state`: an
existing integer is kept, any other present value goes through `int(...)`
with the turn count as fallback, an absent value defaults to the turn
count. -/
def lastTurnFix (data : List (String × PyVal)) (turnCount : Nat) :
    List (String × PyVal) :=
  match dictGet? data "last_turn" with
  | some (.int _) => data
  | some v =>
      match pyToInt? v with
      | some n => dictSet data "last_turn" (.int n)
      | Option.none => dictSet data "last_turn" (.int turnCount)
  | Option.none => dictSetDefault data "last_turn" (.int turnCount)

/-- Embedding of `TurnProcessor._load_player_state`: a missing or non-dict
character document becomes `\x7b\x7d`; `name` defaults to the player,
`turns` is coerced to a list, `last_turn` is coerced to an integer with
the turn count as fallback. -/
def loadPlayerState (chars : List (String × PyVal)) (player : String) :
    List (String × PyVal) :=
  let data := dictSetDefault (playerFileDict chars player) "name" (.str player)
  let turns := match dictGet? data "turns" with
    | some (.list ts) => ts
    | _ => []
  lastTurnFix (dictSet data "turns" (.list turns)) turns.length

/-- Embedding of `TurnProcessor._append_player_turn`: load the player
state, normalize the reflection payload, append one `PlayerTurnRecord`,
set `last_turn`, and persist the document under the raw player key. -/
def appendPlayerTurn (chars : List (String × PyVal)) (player : String)
    (turnNumber : Nat) (gmSummary action outcome : String)
    (reflectionPayload : PyVal) : List (String × PyVal) :=
  let state := loadPlayerState chars player
  let rc := normalizeReflection reflectionPayload
  let record := recordToDict turnNumber action outcome (pyStrip gmSummary) rc.1 rc.2
  let stateTurns := match dictGet? state "turns" with
    | some (.list ts) => ts
    | _ => []
  let state := dictSet state "turns" (.list (stateTurns ++ [record]))
  let state := dictSetDefault state "name" (.str player)
  let state := dictSet state "last_turn" (.int turnNumber)
  dictSet chars player (.dict state)

/-- Embedding of `StorylineManager.get_turns` normalization of one stored
turn. -/
def normStoredTurn (t : PyVal) : PyVal :=
  match t with
  | .dict kvs =>
      let content := pyToStr (pyOr (dictGetD kvs "content" (.str "")) (.str ""))
      let origin := pyToStr (pyOr (dictGetD kvs "origin" (dictGetD kvs "author" (.str "user"))) (.str "user"))
      .dict (dictSet (dictSet kvs "content" (.str content)) "origin" (.str origin))
  | t => .dict [("content", .str (pyToStr t)), ("origin", .str "user")]

/-- Embedding of `StorylineManager.get_turns`: iterate
`data.get("turns", [])` normalizing each entry.  Iterating a string or a
dict follows Python iteration (characters, keys); `Option.none` models the
`AttributeError`/`TypeError` raised on a non-dict document or a
non-iterable `turns` value. -/
def getTurns (data : PyVal) : Option (List PyVal) :=
  match data with
  | .dict kvs =>
      match dictGetD kvs "turns" (.list []) with
      | .list ts => some (ts.map normStoredTurn)
      | .str s => some (s.data.map (fun c =>
          PyVal.dict [("content", .str (String.singleton c)), ("origin", .str "user")]))
      | .dict kvs2 => some (kvs2.map (fun kv =>
          PyVal.dict [("content", .str kv.1), ("origin", .str "user")]))
      | _ => Option.none
  | _ => Option.none

/-- Embedding of `StorylineManager.update_turns` (the loaded state is a
dict by the time `process_turn` calls it): copy the state and replace its
`turns` with the normalized list. -/
def updateTurns (stateKvs : List (String × PyVal)) (turns : List PyVal) : PyVal :=
  let normalized := turns.map (fun t =>
    match t with
    | .dict kvs =>
        let content := pyToStr (pyOr (dictGetD kvs "content" (.str "")) (.str ""))
        let origin := pyToStr (pyOr (dictGetD kvs "origin" (.str "user")) (.str "user"))
        .dict (dictSet (dictSet kvs "content" (.str content)) "origin" (.str origin))
    | t => .dict [("content", .str (pyToStr (pyOr t (.str "")))), ("origin", .str "user")])
  .dict (dictSet stateKvs "turns" (.list normalized))

/-- Embedding of `StorylineManager.save` normalization before persisting. -/
def storylineSave (data : PyVal) : PyVal :=
  match data with
  | .dict kvs =>
      match dictGet? kvs "turns" with
      | some (.list _) => .dict kvs
      | _ => .dict (dictSet kvs "turns" (.list []))
  | _ => .dict [("title", .str ""), ("summary", .str ""), ("turns", .list [])]

/-- Inputs of one `TurnProcessor.process_turn` call (the `project_folder`
argument only selects the storage modelled by `TPState`). -/
structure TPIn where
  playerActions : Option (List (String × String))
  gmSummary : String
  perPlayerOutcomes : Option (List (String × String))
  playerReflections : Option (List (String × PyVal))

/-- Storage state a `process_turn` call reads and rewrites: the parsed
shared storyline document and the parsed character documents keyed by raw
player name. -/
structure TPState where
  storyline : PyVal
  chars : List (String × PyVal)

/-- Result dictionary of `process_turn` (`players` iterates the impacted
set; the model fixes the set's iteration order to the sorted order, which
the source also uses for the ledger writes). -/
structure TPResult where
  turn : Nat
  entry : PyVal
  players : List (String × PyVal)

/-- Embedding of `TurnProcessor.process_turn`; `Option.none` models the
exception raised when the stored storyline document is malformed. -/
def processTurn (inp : TPIn) (st : TPState) : Option (TPResult × TPState) :=
  let na := normalizeMapping inp.playerActions
  let no := normalizeMapping inp.perPlayerOutcomes
  let refl := inp.playerReflections.getD []
  match st.storyline with
  | .dict kvs =>
      match getTurns (.dict kvs) with
      | Option.none => Option.none
      | some turns =>
          let turnNumber := turns.length + 1
          let entry : PyVal := .dict
            [("turn", .int turnNumber),
             ("content", .str (pyStrip inp.gmSummary)),
             ("origin", .str "gm"),
             ("player_actions", .dict (na.map (fun kv => (kv.1, PyVal.str kv.2)))),
             ("per_player_outcomes", .dict (no.map (fun kv => (kv.1, PyVal.str kv.2))))]
          let newStoryline := storylineSave (updateTurns kvs (turns ++ [entry]))
          let impacted := sortStrings (dedupStr (dictKeys na ++ dictKeys no ++ dictKeys refl))
          let chars2 := impacted.foldl (fun cs p =>
            appendPlayerTurn cs p turnNumber inp.gmSummary
              (dictGetD na p "") (dictGetD no p "") (dictGetD refl p PyVal.none)) st.chars
          let players := impacted.map (fun p => (p, PyVal.dict (loadPlayerState chars2 p)))
          some ({ turn := turnNumber, entry := entry, players := players },
                { storyline := newStoryline, chars := chars2 })
  | _ => Option.none

/-- Successive `process_turn` calls against the same storage, collecting
the returned turn numbers. -/
def runTurns : List TPIn → TPState → Option (List Nat × TPState)
  | [], st => some ([], st)
  | inp :: rest, st =>
      match processTurn inp st with
      | Option.none => Option.none
      | some (res, st2) =>
          match runTurns rest st2 with
          | Option.none => Option.none
          | some (ns, stf) => some (res.turn :: ns, stf)

/-- Shared ledger freshly initialized from the cleared default template
(`\x7b"title": "", "summary": "", "turns": []\x7d`). -/
def emptyLedger : PyVal :=
  .dict [("title", .str ""), ("summary", .str ""), ("turns", .list [])]

/-- Number of turns stored in a parsed storyline document, when it is a
dict whose `turns` default to a list. -/
def ledgerTurnCount (v : PyVal) : Option Nat :=
  match v with
  | .dict kvs =>
      match dictGetD kvs "turns" (.list []) with
      | .list ts => some ts.length
      | _ => Option.none
  | _ => Option.none

/-- Number of `PlayerTurnRecord`s stored for a player, counted the way
`_load_player_state` normalizes the document (missing or malformed
documents and non-list `turns` count as zero). -/
def charTurnCount (chars : List (String × PyVal)) (player : String) : Nat :=
  match dictGet? chars player with
  | some (.dict kvs) =>
      match dictGet? kvs "turns" with
      | some (.list ts) => ts.length
      | _ => 0
  | _ => 0

/-!
Embedding of the interactive path of `story_builder/editor.py`
(`FieldWalker.walk`, `_walk_dict`, `_prompt_string`, `_prompt_list`).

The dialog boundary is modelled as an oracle: the walk is single-threaded,
so the reply of each `ask_field` call and the state of the dialog's
mutable `exit_early` flag are functions of the number of `ask_field` calls
made so far.  The prompt configuration, titles and context snapshots only
shape the text shown at that boundary, never the value committed back into
the tree, so they do not appear in the value-flow model.
-/

/-- Dialog oracle: `ask k` is the reply of the `(k+1)`-th `ask_field` call
(a `None` reply behaves as `""` through the source's `user_input or ""`),
and `exitAt k` is the `exit_early` flag observed after `k` calls. -/
structure Dlg where
  ask : Nat → String
  exitAt : Nat → Bool

/-- Embedding of `FieldWalker._prompt_string` for a leaf rendered as the
string `value`: prompt when the trimmed value is empty or full-edit mode
is on, otherwise keep the value.  Returns the committed value and the
updated call count. -/
def promptString (d : Dlg) (fullEdit : Bool) (value : String) (k : Nat) :
    String × Nat :=
  if pyStrip value = "" ∨ fullEdit then (d.ask k, k + 1) else (value, k)

/-- Model of Python `s.split(sep)` for a single-character separator. -/
def splitOnChar (sep : Char) : List Char → List (List Char)
  | [] => [[]]
  | c :: rest =>
      match splitOnChar sep rest with
      | [] => [[]]
      | g :: gs => if c = sep then [] :: g :: gs else (c :: g) :: gs

/-- Comma-split parsing of a whole-list reply in `_prompt_list`
(`[x.strip() for x in user_input.split(",") if x.strip()]`,
empty reply giving `[]`). -/
def parseCommaList (reply : String) : List PyVal :=
  if reply = "" then []
  else
    (((splitOnChar ',' reply.data).map (fun g => pyStrip (String.mk g))).filter
      (fun x => x ≠ "")).map PyVal.str

mutual

/-- Embedding of the loop of `FieldWalker._walk_dict`: the `exit_early`
flag is checked before each key; a `None` value is first replaced by `""`;
dict values recurse, list values go through `_prompt_list`, anything else
through `_prompt_string` on its `str()` rendering. -/
def walkDict (d : Dlg) (fullEdit : Bool) :
    List (String × PyVal) → Nat → List (String × PyVal) × Nat
  | [], k => ([], k)
  | (key, v) :: rest, k =>
      if d.exitAt k then ((key, v) :: rest, k)
      else
        match v with
        | .dict kvs =>
            let r := walkDict d fullEdit kvs k
            let r2 := walkDict d fullEdit rest r.2
            ((key, .dict r.1) :: r2.1, r2.2)
        | .list xs =>
            let r := promptList d fullEdit xs k
            let r2 := walkDict d fullEdit rest r.2
            ((key, .list r.1) :: r2.1, r2.2)
        | .none =>
            let r := promptString d fullEdit "" k
            let r2 := walkDict d fullEdit rest r.2
            ((key, .str r.1) :: r2.1, r2.2)
        | .str s =>
            let r := promptString d fullEdit s k
            let r2 := walkDict d fullEdit rest r.2
            ((key, .str r.1) :: r2.1, r2.2)
        | .int n =>
            let r := promptString d fullEdit (pyToStr (.int n)) k
            let r2 := walkDict d fullEdit rest r.2
            ((key, .str r.1) :: r2.1, r2.2)
termination_by l _ => sizeOf l
decreasing_by all_goals (simp_wf <;> omega)

/-- Embedding of `FieldWalker._prompt_list`: an empty list (or full-edit
mode) prompts once for the whole list and parses the reply as
comma-separated values; otherwise the elements are visited in order. -/
def promptList (d : Dlg) (fullEdit : Bool) (xs : List PyVal) (k : Nat) :
    List PyVal × Nat :=
  if xs.isEmpty ∨ fullEdit then (parseCommaList (d.ask k), k + 1)
  else promptListGo d fullEdit xs k
termination_by sizeOf xs + 1
decreasing_by all_goals simp_wf

/-- Element loop of `FieldWalker._prompt_list`: `exit_early` breaks the
loop (remaining elements are dropped); `None` becomes `""`; an empty
string element is replaced by the reply, a non-empty one is kept; a dict
element is recursed into; any other element is prompted for and the loop
then returns early, dropping the remaining elements. -/
def promptListGo (d : Dlg) (fullEdit : Bool) :
    List PyVal → Nat → List PyVal × Nat
  | [], k => ([], k)
  | v :: rest, k =>
      if d.exitAt k then ([], k)
      else
        match v with
        | .none =>
            let r := promptListGo d fullEdit rest (k + 1)
            (PyVal.str (d.ask k) :: r.1, r.2)
        | .str s =>
            if pyStrip s = "" then
              let r := promptListGo d fullEdit rest (k + 1)
              (PyVal.str (d.ask k) :: r.1, r.2)
            else
              let r := promptListGo d fullEdit rest k
              (PyVal.str s :: r.1, r.2)
        | .dict kvs =>
            let r := walkDict d fullEdit kvs k
            let r2 := promptListGo d fullEdit rest r.2
            (PyVal.dict r.1 :: r2.1, r2.2)
        | .list ys => ([PyVal.str (d.ask k)], k + 1)
        | .int n => ([PyVal.str (d.ask k)], k + 1)
termination_by l _ => sizeOf l
decreasing_by all_goals (simp_wf <;> omega)

end

/-- Embedding of `FieldWalker.walk` on a tree whose root is a dict (the
`prompt_data` argument and the global-context pre-pass only influence the
text shown at the dialog boundary). -/
def walk (d : Dlg) (fullEdit : Bool) (data : PyVal) : PyVal :=
  match data with
  | .dict kvs => .dict (walkDict d fullEdit kvs 0).1
  | v => v

/-- Keyword parameters accepted by `FieldWalker.auto_generate` in
`story_builder/editor.py` (the parameters after `*` in its signature). -/
def autoGenerateKeywordParams : List String := ["user_prompt", "story_context"]

/-- Model of Python keyword binding for a `FieldWalker.auto_generate` call
site: the call raises `TypeError` unless every keyword argument names an
accepted keyword parameter. -/
def autoGenerateAcceptsCall (kwargs : List String) : Bool :=
  kwargs.all (fun k => autoGenerateKeywordParams.contains k)

/-!
Auxiliary definitions used only to state and prove the claims.
-/

/-- Concatenation of a list of strings (Python `"".join`). -/
def concatAll : List String → String
  | [] => ""
  | s :: rest => s ++ concatAll rest

/-- Description of reflection normalization copied from the specification's
words: absent/null gives `("", [])`; a mapping pairs the trimmed note
texts found under the note-like keys, concatenated, with the concatenation
of every sequence found under the plan-like keys; a bare non-string
sequence gives the empty note with that sequence cleaned; any other value
gives its trimmed text with no candidate actions. -/
def normalizeReflectionSpec (payload : PyVal) : String × List String :=
  match payload with
  | .none => ("", [])
  | .dict kvs =>
      let notes := joinWith "\n\n"
        ((noteKeys.map (fun k =>
            if dictHas kvs k then cleanText (dictGetD kvs k PyVal.none) else "")).filter
          (fun t => t ≠ ""))
      let candidates :=
        ((planKeys.filter (fun k => dictHas kvs k)).map
          (fun k => cleanSequence (dictGetD kvs k PyVal.none))).flatten
      (notes, candidates)
  | .list xs => ("", cleanSequence (.list xs))
  | other => (cleanText other, [])

/-- Drop the stored turn-number field of a turn record. -/
def eraseTurnField (t : PyVal) : PyVal :=
  match t with
  | .dict kvs => .dict (kvs.filter (fun kv => !(kv.1 == "turn")))
  | t => t

/-- Element-wise relation between an input list element and the element
`_prompt_list` commits for it (with full-edit off): a non-blank string is
kept, a blank string or `None` is replaced by some dialog reply, a dict is
replaced by its `_walk_dict` result. -/
def listElemCorr (d : Dlg) (x y : PyVal) : Prop :=
  (∀ s, x = .str s → pyStrip s ≠ "" → y = .str s) ∧
  (∀ s, x = .str s → pyStrip s = "" → ∃ n, y = .str (d.ask n)) ∧
  (x = .none → ∃ n, y = .str (d.ask n)) ∧
  (∀ kvs, x = .dict kvs → ∃ k2, y = .dict (walkDict d false kvs k2).1)

/-- Content stored in a shared-ledger entry dict (projection used to state
the scenario claims). -/
def entryContentOf (e : PyVal) : PyVal :=
  match e with
  | .dict kvs => dictGetD kvs "content" .none
  | _ => .none

/-- Scenario input of claim C5: `gmSummary = "S"`,
`actions = {"A": "a1"}`, `outcomes = {"B": "o1"}`, empty
reflections. -/
def scenarioC5 : TPIn := ⟨some [("A", "a1")], "S", some [("B", "o1")], some []⟩

/-- Freshly initialized project storage: empty shared ledger, no character
documents. -/
def startState : TPState := ⟨emptyLedger, []⟩

/-- Concrete run of the C5 scenario. -/
def c5run : TPResult × TPState :=
  (processTurn scenarioC5 startState).getD ⟨⟨0, .none, []⟩, ⟨.none, []⟩⟩

/-- Scenario input of claim C9: an action key `" A "` (blank-padded) and
reflection keys `" "` (blank after trimming) and `" A "`. -/
def scenarioC9 : TPIn :=
  ⟨some [(" A ", "a")], "G", Option.none, some [(" ", .str "r"), (" A ", .str "q")]⟩

/-- Concrete run of the C9 scenario. -/
def c9run : TPResult × TPState :=
  (processTurn scenarioC9 startState).getD ⟨⟨0, .none, []⟩, ⟨.none, []⟩⟩

/-- Cost accounted by the chunking loop for a group of blocks: the sum of
the block lengths plus 2 per block (the loop counts a separator allowance
after every block, including the last). -/
def cost (G : List String) : Nat := (G.map String.length).sum + 2 * G.length

/-- Ghost mirror of the `_chunk_summaries` loop on already-stripped
non-blank blocks, collecting the groups of blocks that form each chunk
instead of the joined chunk texts. -/
def gg (B : Nat) : List String → List String → List (List String)
  | [], cur => if cur.isEmpty then [] else [cur]
  | s :: rest, cur =>
      if !cur.isEmpty ∧ cost cur + s.length + 2 > B then cur :: gg B rest [s]
      else gg B rest (cur ++ [s])

/-!
Helper lemmas about dict lookup and key filtering.
-/

theorem dictGet?_filter_ne {α : Type} (kvs : List (String × α)) (k k0 : String)
    (h : k ≠ k0) :
    dictGet? (kvs.filter (fun kv => !(kv.1 == k0))) k = dictGet? kvs k := by
  induction kvs with
  | nil => rfl
  | cons kv rest ih =>
      by_cases hk : kv.1 = k0
      · simp [List.filter_cons, hk, dictGet?, Ne.symm h, ih]
      · by_cases he : kv.1 = k
        · simp [List.filter_cons, hk, dictGet?, he, h, ih]
        · simp [List.filter_cons, hk, dictGet?, he, ih]

/-!
Claim C4 — totality and shape of reflection normalization.
-/

theorem foldl_append_if {β : Type} (l : List String) (h : String → Bool)
    (g : String → List β) :
    ∀ acc : List β,
      l.foldl (fun acc k => if h k then acc ++ g k else acc) acc =
        acc ++ ((l.filter h).map g).flatten := by
  induction l with
  | nil => intro acc; simp
  | cons x rest ih =>
      intro acc
      by_cases hx : h x
      · simp [List.foldl, hx, ih, List.filter_cons]
      · simp [List.foldl, hx, ih, List.filter_cons]

theorem filterMap_if_eq (l : List String) (h : String → Bool) (g : String → String) :
    l.filterMap (fun k =>
        if h k then (if g k ≠ "" then some (g k) else Option.none) else Option.none) =
      (l.map (fun k => if h k then g k else "")).filter (fun t => t ≠ "") := by
  induction l with
  | nil => rfl
  | cons x rest ih =>
      by_cases hx : h x
      · by_cases hg : g x = ""
        · simp_all [List.filterMap_cons, List.filter_cons]
        · simp_all [List.filterMap_cons, List.filter_cons]
      · simp_all [List.filterMap_cons, List.filter_cons]

/-- Claim C4: `TurnProcessor._normalize_reflection` is total over the
embedded value shapes and matches the specification's case analysis —
absent/null gives `("", [])`, a mapping collects trimmed note texts under
the note-like keys and all cleaned sequences under the plan-like keys, a
bare non-string sequence is cleaned into the candidate list, and any other
value becomes its trimmed text; in particular the three documented
examples hold. -/
theorem normalize_reflection_matches_spec :
    (∀ payload : PyVal, normalizeReflection payload = normalizeReflectionSpec payload) ∧
    normalizeReflection (.dict [("notes", .str "x"), ("plans", .list [.str "a", .str "b"])]) =
      ("x", ["a", "b"]) ∧
    normalizeReflection (.str "y") = ("y", []) ∧
    normalizeReflection (.list [.str "a", .str "b"]) = ("", ["a", "b"]) ∧
    normalizeReflection PyVal.none = ("", []) := by
  refine ⟨?_, by decide, by decide, by decide, by decide⟩
  intro payload
  cases payload with
  | none => rfl
  | int n => rfl
  | str s => rfl
  | list xs => rfl
  | dict kvs =>
      simp only [normalizeReflection, normalizeReflectionSpec]
      rw [Prod.mk.injEq]
      constructor
      · rw [filterMap_if_eq noteKeys (fun k => dictHas kvs k)
            (fun k => cleanText (dictGetD kvs k PyVal.none))]
      · rw [foldl_append_if planKeys (fun k => dictHas kvs k)
            (fun k => cleanSequence (dictGetD kvs k PyVal.none)) []]
        simp

/-!
Claim C6 — the generative path and the `on_field_filled` callback.
-/

/-- Claim C6 (code evaluated at the failing call): every caller of
`FieldWalker.auto_generate` in the repository passes an `on_field_filled`
keyword argument, but the method's signature accepts only `user_prompt`
and `story_context`, so the call raises `TypeError` and no callback is
ever invoked. -/
theorem auto_generate_rejects_on_field_filled :
    autoGenerateAcceptsCall ["user_prompt", "story_context", "on_field_filled"] = false := by
  decide

/-!
Claim C10 — position-based turn labels in `prepare_turn_summaries`.
-/

theorem renderTurn_eraseTurnField (i : Nat) (t : PyVal) :
    renderTurn i (eraseTurnField t) = renderTurn i t := by
  cases t with
  | dict kvs =>
      simp only [eraseTurnField, renderTurn, dictGetD]
      rw [dictGet?_filter_ne kvs "content" "turn" (by decide),
          dictGet?_filter_ne kvs "player_actions" "turn" (by decide),
          dictGet?_filter_ne kvs "per_player_outcomes" "turn" (by decide),
          dictGet?_filter_ne kvs "player_reflections" "turn" (by decide)]
  | none => rfl
  | int n => rfl
  | str s => rfl
  | list xs => rfl

theorem prepareFrom_eraseTurnField (i : Nat) (ts : List PyVal) :
    prepareFrom i (ts.map eraseTurnField) = prepareFrom i ts := by
  induction ts generalizing i with
  | nil => rfl
  | cons t rest ih =>
      simp only [List.map_cons, prepareFrom, renderTurn_eraseTurnField]
      cases renderTurn i t with
      | none => exact ih (i + 1)
      | some b => rw [ih (i + 1)]

/-- Claim C10: `prepare_turn_summaries` labels blocks by the 1-based input
position, never reading the record's stored `turn` field (erasing that
field changes nothing), and skipped entries — non-dict entries or blank
content — consume an index without producing a block, so labels diverge
from both the stored numbers and a dense renumbering. -/
theorem prepare_summaries_position_labels :
    (∀ ts : List PyVal,
        prepareTurnSummaries (ts.map eraseTurnField) = prepareTurnSummaries ts) ∧
    prepareTurnSummaries
        [.dict [("turn", .int 7), ("content", .str "a")],
         .str "ignored",
         .dict [("content", .str "")],
         .dict [("turn", .int 2), ("content", .str "b")]] =
      ["Turn 1: a", "Turn 4: b"] := by
  exact ⟨fun ts => prepareFrom_eraseTurnField 1 ts, by decide⟩

/-!
Claim C3 — oversized-summary splitting, and claims C7/C8 — the
interactive walk.
-/

theorem string_mk_append (a b : List Char) :
    String.mk a ++ String.mk b = String.mk (a ++ b) := rfl

theorem rawSlices_concat (B : Nat) (cs : List Char) :
    concatAll (rawSlices B cs) = String.mk cs := by
  induction cs using rawSlices.induct B with
  | case1 => rw [rawSlices]; rfl
  | case2 c rest ih =>
      rw [rawSlices]
      show String.mk ((c :: rest).take (max B 1)) ++
          concatAll (rawSlices B ((c :: rest).drop (max B 1))) = _
      rw [ih, string_mk_append, List.take_append_drop]

theorem pyStrip_length_le (s : String) : (pyStrip s).length ≤ s.length := by
  show (((s.data.dropWhile pyIsSpace).reverse.dropWhile pyIsSpace).reverse).length ≤
    s.data.length
  calc (((s.data.dropWhile pyIsSpace).reverse.dropWhile pyIsSpace).reverse).length
      = ((s.data.dropWhile pyIsSpace).reverse.dropWhile pyIsSpace).length :=
        List.length_reverse _
    _ ≤ (s.data.dropWhile pyIsSpace).reverse.length := (List.dropWhile_sublist _).length_le
    _ = (s.data.dropWhile pyIsSpace).length := List.length_reverse _
    _ ≤ s.data.length := (List.dropWhile_sublist _).length_le

theorem rawSlices_mem_length_le (B : Nat) (cs : List Char) :
    ∀ r ∈ rawSlices B cs, r.length ≤ max B 1 := by
  induction cs using rawSlices.induct B with
  | case1 => rw [rawSlices]; intro r hr; cases hr
  | case2 c rest ih =>
      rw [rawSlices]
      intro r hr
      rcases List.mem_cons.mp hr with h | h
      · subst h
        exact List.length_take_le _ _
      · exact ih r h

theorem rawSlices_length_eq (B : Nat) (hB : 0 < B) (cs : List Char) (hne : cs ≠ []) :
    (rawSlices B cs).length = (cs.length + B - 1) / B := by
  induction cs using rawSlices.induct B with
  | case1 => exact absurd rfl hne
  | case2 c rest ih =>
      have hmax : max B 1 = B := Nat.max_eq_left hB
      rw [hmax] at ih
      rw [rawSlices, hmax]
      by_cases hle : rest.length + 1 ≤ B
      · have hdrop : (c :: rest).drop B = [] :=
          List.drop_eq_nil_of_le (by simpa using hle)
        rw [hdrop, rawSlices]
        show 1 = ((c :: rest).length + B - 1) / B
        rw [List.length_cons]
        have h1 : 1 * B ≤ rest.length + 1 + B - 1 := by omega
        have h2 : rest.length + 1 + B - 1 < (1 + 1) * B := by omega
        exact (Nat.div_eq_of_lt_le h1 h2).symm
      · push_neg at hle
        have hdrop_ne : (c :: rest).drop B ≠ [] := by
          intro hd
          have := congrArg List.length hd
          simp only [List.length_drop, List.length_cons, List.length_nil] at this
          omega
        show (rawSlices B ((c :: rest).drop B)).length + 1 =
          ((c :: rest).length + B - 1) / B
        rw [ih hdrop_ne]
        simp only [List.length_drop, List.length_cons]
        have e1 : rest.length + 1 - B + B - 1 = (rest.length + 1 - 1 - B) + B := by omega
        have e2 : rest.length + 1 + B - 1 = (rest.length + 1 - 1) + B := by omega
        have e3 : rest.length + 1 - 1 = (rest.length + 1 - 1 - B) + B := by omega
        rw [e1, e2, Nat.add_div_right _ hB, Nat.add_div_right _ hB]
        have e4 : (rest.length + 1 - 1) / B = (rest.length + 1 - 1 - B) / B + 1 := by
          conv_lhs => rw [e3]
          rw [Nat.add_div_right _ hB]
        rw [e4]

/-- Claim C3 (counterexample): at budget `B = 2` the oversized text
`"a   b"` (length 5) does not split into `ceil(5/2) = 3` slices whose
concatenation reconstructs it: the source strips each slice and drops the
blank middle slice, returning `["a", "b"]`, whose concatenation loses the
interior whitespace. -/
theorem split_large_entry_counterexample :
    ("a   b".length > 2) ∧
    splitLargeEntry 2 "a   b" = ["a", "b"] ∧
    (splitLargeEntry 2 "a   b").length ≠ ("a   b".length + 2 - 1) / 2 ∧
    concatAll (splitLargeEntry 2 "a   b") ≠ "a   b" := by
  have he : splitLargeEntry 2 "a   b" = ["a", "b"] := by
    simp [splitLargeEntry, rawSlices]
    decide
  refine ⟨by decide, he, ?_, ?_⟩
  · rw [he]; decide
  · rw [he]; decide

/-- Claim C3 (amended): `_split_large_entry` cuts the text into the
`ceil(L/B)` sequential `B`-sized raw slices — whose concatenation is the
original text — then trims each slice and drops blank ones; every returned
slice has length at most `B`, and when every raw slice is already trimmed
and non-blank the result is exactly those `ceil(L/B)` slices and their
concatenation reconstructs the text. -/
theorem split_large_entry_amended (B : Nat) (text : String) (hB : 0 < B) :
    (∀ p ∈ splitLargeEntry B text, p.length ≤ B) ∧
    (rawSlices B text.data).length = (text.length + B - 1) / B ∧
    concatAll (rawSlices B text.data) = text ∧
    ((∀ r ∈ rawSlices B text.data, pyStrip r = r ∧ r ≠ "") →
      splitLargeEntry B text = rawSlices B text.data ∧
      concatAll (splitLargeEntry B text) = text ∧
      (splitLargeEntry B text).length = (text.length + B - 1) / B) := by
  have hconcat : concatAll (rawSlices B text.data) = text := rawSlices_concat B text.data
  have hlen : (rawSlices B text.data).length = (text.length + B - 1) / B := by
    by_cases hne : text.data = []
    · rw [hne, rawSlices]
      have h0 : text.length = 0 := by
        show text.data.length = 0
        rw [hne]; rfl
      rw [h0]
      exact (Nat.div_eq_of_lt (by omega)).symm
    · exact rawSlices_length_eq B hB text.data hne
  have heqraw : ∀ r ∈ rawSlices B text.data, r.length ≤ B := by
    intro r hr
    have := rawSlices_mem_length_le B text.data r hr
    have hmax : max B 1 = B := Nat.max_eq_left hB
    omega
  refine ⟨?_, hlen, hconcat, ?_⟩
  · intro p hp
    simp only [splitLargeEntry, List.mem_filter, List.mem_map] at hp
    obtain ⟨⟨r, hr, hpr⟩, _⟩ := hp
    subst hpr
    exact le_trans (pyStrip_length_le r) (heqraw r hr)
  · intro hall
    have hmap : (rawSlices B text.data).map pyStrip = rawSlices B text.data := by
      have : (rawSlices B text.data).map pyStrip = (rawSlices B text.data).map id :=
        List.map_congr_left (fun r hr => (hall r hr).1)
      rw [this, List.map_id]
    have hfil : splitLargeEntry B text = rawSlices B text.data := by
      unfold splitLargeEntry
      rw [hmap]
      apply List.filter_eq_self.mpr
      intro r hr
      simpa using (hall r hr).2
    exact ⟨hfil, by rw [hfil]; exact hconcat, by rw [hfil]; exact hlen⟩

theorem split_large_entry_amended_witness :
    ((∀ p ∈ splitLargeEntry 2 "abcd", p.length ≤ 2) ∧
     (rawSlices 2 "abcd".data).length = ("abcd".length + 2 - 1) / 2 ∧
     concatAll (rawSlices 2 "abcd".data) = "abcd" ∧
     ((∀ r ∈ rawSlices 2 "abcd".data, pyStrip r = r ∧ r ≠ "") →
       splitLargeEntry 2 "abcd" = rawSlices 2 "abcd".data ∧
       concatAll (splitLargeEntry 2 "abcd") = "abcd" ∧
       (splitLargeEntry 2 "abcd").length = ("abcd".length + 2 - 1) / 2)) ∧
    splitLargeEntry 2 "abcd" = rawSlices 2 "abcd".data := by
  have h := split_large_entry_amended 2 "abcd" (by decide)
  refine ⟨h, (h.2.2.2 ?_).1⟩
  simp [rawSlices]
  decide

/-- Claim C7 (counterexample): with full-edit off and the acquisition
function replying `" x "` for the empty leaf `"k"`, `walk` commits `" x "`
verbatim, not the trimmed `"x"` the claim requires. -/
theorem walk_empty_leaf_counterexample :
    walk ⟨fun _ => " x ", fun _ => false⟩ false (.dict [("k", .str "")]) =
      .dict [("k", .str " x ")] ∧
    pyStrip " x " = "x" ∧ (" x " : String) ≠ "x" := by
  refine ⟨?_, by decide, by decide⟩
  simp [walk, walkDict, promptString]
  decide

/-- Claim C7 (amended): for an empty-string leaf with full-edit off the
committed value is exactly the acquisition reply, with no trimming —
`_prompt_string` forwards the reply verbatim, and `walk` on a
single-leaf tree commits the first reply verbatim. -/
theorem walk_empty_leaf_passthrough :
    (∀ (d : Dlg) (v : String) (k : Nat), pyStrip v = "" →
        promptString d false v k = (d.ask k, k + 1)) ∧
    (∀ (d : Dlg) (key : String), d.exitAt 0 = false →
        walk d false (.dict [(key, .str "")]) = .dict [(key, .str (d.ask 0))]) := by
  constructor
  · intro d v k hv
    simp [promptString, hv]
  · intro d key hexit
    simp [walk, walkDict, hexit, promptString, pyStrip]

theorem walk_empty_leaf_passthrough_witness :
    promptString ⟨fun _ => "v", fun _ => false⟩ false " " 3 = ("v", 4) ∧
    walk ⟨fun _ => "v", fun _ => false⟩ false (.dict [("k", .str "")]) =
      .dict [("k", .str "v")] := by
  exact ⟨walk_empty_leaf_passthrough.1 ⟨fun _ => "v", fun _ => false⟩ " " 3 (by decide),
         walk_empty_leaf_passthrough.2 ⟨fun _ => "v", fun _ => false⟩ "k" rfl⟩

/-- Claim C8 (counterexample): in the list `["a", 5, "b"]` the non-string
non-dict element `5` makes `_prompt_list` return early after prompting for
it, dropping `"b"`: only two elements come back for three inputs, so not
every element contributes one output element. -/
theorem walk_list_counterexample :
    walk ⟨fun _ => "z", fun _ => false⟩ false
        (.dict [("k", .list [.str "a", .int 5, .str "b"])]) =
      .dict [("k", .list [.str "a", .str "z"])] ∧
    ([PyVal.str "a", PyVal.str "z"] : List PyVal).length ≠
      ([PyVal.str "a", PyVal.int 5, PyVal.str "b"] : List PyVal).length := by
  refine ⟨?_, by decide⟩
  simp +decide [walk, walkDict, promptList, promptListGo, promptString]

/-- Claim C8 (amended): with full-edit off, no cancellation, and a
non-empty list whose elements are all strings, `None`, or nested dicts,
the element loop of `_prompt_list` visits each element in order and emits
exactly one output per input: blank strings and `None` are replaced by a
dialog reply, non-blank strings are kept, and dict elements are recursed
into; in particular the output length equals the input length. -/
theorem walk_list_amended (d : Dlg) (hexit : ∀ n, d.exitAt n = false) :
    ∀ (xs : List PyVal) (k : Nat),
      (∀ x ∈ xs, (∃ s, x = .str s) ∨ x = .none ∨ (∃ kvs, x = .dict kvs)) →
      xs ≠ [] →
      List.Forall₂ (listElemCorr d) xs (promptList d false xs k).1 ∧
      (promptList d false xs k).1.length = xs.length := by
  have main : ∀ (xs : List PyVal) (k : Nat),
      (∀ x ∈ xs, (∃ s, x = .str s) ∨ x = .none ∨ (∃ kvs, x = .dict kvs)) →
      List.Forall₂ (listElemCorr d) xs (promptListGo d false xs k).1 := by
    intro xs
    induction xs with
    | nil => intro k _; rw [promptListGo]; exact List.Forall₂.nil
    | cons x rest ih =>
        intro k hshape
        have hx := hshape x (List.mem_cons_self x rest)
        have hrest := fun y hy => hshape y (List.mem_cons_of_mem x hy)
        rcases hx with ⟨s, hs⟩ | hn | ⟨kvs, hd⟩
        · subst hs
          by_cases hstrip : pyStrip s = ""
          · rw [promptListGo]
            simp only [hexit, hstrip, if_true, Bool.false_eq_true, if_false, reduceIte]
            refine List.Forall₂.cons ?_ (ih (k + 1) hrest)
            refine ⟨?_, ?_, ?_, ?_⟩
            · intro s' hs' hne
              exact absurd (PyVal.str.inj hs' ▸ hstrip) hne
            · intro s' hs' _
              exact ⟨k, rfl⟩
            · intro h; cases h
            · intro kvs h; cases h
          · rw [promptListGo]
            simp only [hexit, hstrip, Bool.false_eq_true, if_false, reduceIte]
            refine List.Forall₂.cons ?_ (ih k hrest)
            refine ⟨?_, ?_, ?_, ?_⟩
            · intro s' hs' _
              exact hs' ▸ rfl
            · intro s' hs' he
              exact absurd ((PyVal.str.inj hs') ▸ he) hstrip
            · intro h; cases h
            · intro kvs h; cases h
        · subst hn
          rw [promptListGo]
          simp only [hexit, Bool.false_eq_true, if_false, reduceIte]
          refine List.Forall₂.cons ?_ (ih (k + 1) hrest)
          refine ⟨?_, ?_, ?_, ?_⟩
          · intro s' hs'; cases hs'
          · intro s' hs'; cases hs'
          · intro _; exact ⟨k, rfl⟩
          · intro kvs h; cases h
        · subst hd
          rw [promptListGo]
          simp only [hexit, Bool.false_eq_true, if_false, reduceIte]
          refine List.Forall₂.cons ?_ (ih _ hrest)
          refine ⟨?_, ?_, ?_, ?_⟩
          · intro s' hs'; cases hs'
          · intro s' hs'; cases hs'
          · intro h; cases h
          · intro kvs' h
            exact ⟨k, by rw [PyVal.dict.inj h]⟩
  intro xs k hshape hne
  have hgo : promptList d false xs k = promptListGo d false xs k := by
    rw [promptList]
    have : xs.isEmpty = false := by
      cases xs with
      | nil => exact absurd rfl hne
      | cons a b => rfl
    simp [this]
  rw [hgo]
  refine ⟨main xs k hshape, ?_⟩
  exact ((main xs k hshape).length_eq).symm

theorem walk_list_amended_witness :
    (List.Forall₂ (listElemCorr ⟨fun _ => "z", fun _ => false⟩)
        [PyVal.str "a", PyVal.str ""]
        (promptList ⟨fun _ => "z", fun _ => false⟩ false [PyVal.str "a", PyVal.str ""] 0).1 ∧
     (promptList ⟨fun _ => "z", fun _ => false⟩ false [PyVal.str "a", PyVal.str ""] 0).1.length =
       ([PyVal.str "a", PyVal.str ""] : List PyVal).length) :=
  walk_list_amended ⟨fun _ => "z", fun _ => false⟩ (fun _ => rfl)
    [PyVal.str "a", PyVal.str ""] 0
    (by intro x hx
        rcases List.mem_cons.mp hx with h | h
        · exact Or.inl ⟨"a", h⟩
        · rcases List.mem_cons.mp h with h2 | h2
          · exact Or.inl ⟨"", h2⟩
          · cases h2)
    (by simp)

theorem dictGet?_dictSet_self {α : Type} (kvs : List (String × α)) (k : String) (v : α) :
    dictGet? (dictSet kvs k v) k = some v := by
  induction kvs with
  | nil => simp [dictSet, dictGet?]
  | cons kv rest ih =>
      by_cases h : kv.1 = k
      · simp [dictSet, h, dictGet?]
      · simp [dictSet, h, dictGet?, ih]

theorem dictGet?_dictSet_ne {α : Type} (kvs : List (String × α)) (k k0 : String) (v : α)
    (h : k ≠ k0) :
    dictGet? (dictSet kvs k0 v) k = dictGet? kvs k := by
  induction kvs with
  | nil => simp [dictSet, dictGet?, Ne.symm h]
  | cons kv rest ih =>
      by_cases hk : kv.1 = k0
      · simp [dictSet, hk, dictGet?, Ne.symm h]
      · simp [dictSet, hk, dictGet?, ih]

theorem dictGet?_append_single_ne {α : Type} (a : List (String × α)) (k k0 : String)
    (v : α) (h : k ≠ k0) :
    dictGet? (a ++ [(k0, v)]) k = dictGet? a k := by
  induction a with
  | nil => simp [dictGet?, Ne.symm h]
  | cons kv rest ih =>
      by_cases hk : kv.1 = k
      · simp [dictGet?, hk]
      · simp [dictGet?, hk, ih]

theorem dictGet?_dictSetDefault_ne {α : Type} (kvs : List (String × α)) (k k0 : String)
    (v : α) (h : k ≠ k0) :
    dictGet? (dictSetDefault kvs k0 v) k = dictGet? kvs k := by
  unfold dictSetDefault
  by_cases hh : dictHas kvs k0
  · simp [hh]
  · simp [hh, dictGet?_append_single_ne kvs k k0 v h]

theorem lastTurnFix_get_ne (data : List (String × PyVal)) (L : Nat) (k : String)
    (h : k ≠ "last_turn") :
    dictGet? (lastTurnFix data L) k = dictGet? data k := by
  unfold lastTurnFix
  rcases hl : dictGet? data "last_turn" with _ | v
  · exact dictGet?_dictSetDefault_ne _ _ _ _ h
  · cases v with
    | int n => rfl
    | none => cases hp : pyToInt? PyVal.none <;> simp [hp, dictGet?_dictSet_ne _ _ _ _ h]
    | str s => cases hp : pyToInt? (PyVal.str s) <;> simp [hp, dictGet?_dictSet_ne _ _ _ _ h]
    | list l => cases hp : pyToInt? (PyVal.list l) <;> simp [hp, dictGet?_dictSet_ne _ _ _ _ h]
    | dict d2 => cases hp : pyToInt? (PyVal.dict d2) <;> simp [hp, dictGet?_dictSet_ne _ _ _ _ h]

theorem charTurnCount_eq_playerFile (cs : List (String × PyVal)) (p : String) :
    charTurnCount cs p =
      (match dictGet? (playerFileDict cs p) "turns" with
       | some (.list ts) => ts
       | _ => []).length := by
  unfold charTurnCount playerFileDict
  rcases hcs : dictGet? cs p with _ | v
  · simp [dictGet?]
  · cases v with
    | dict kvs =>
        rcases ht : dictGet? kvs "turns" with _ | tv
        · simp [ht]
        · cases tv <;> simp [ht]
    | none => simp [dictGet?]
    | int n => simp [dictGet?]
    | str s => simp [dictGet?]
    | list l => simp [dictGet?]

theorem loadPlayerState_turns (cs : List (String × PyVal)) (p : String) :
    ∃ ts : List PyVal, dictGet? (loadPlayerState cs p) "turns" = some (.list ts) ∧
      ts.length = charTurnCount cs p := by
  unfold loadPlayerState
  rw [lastTurnFix_get_ne _ _ _ (by decide), dictGet?_dictSet_self]
  refine ⟨_, rfl, ?_⟩
  rw [dictGet?_dictSetDefault_ne _ _ _ _ (by decide : ("turns" : String) ≠ "name")]
  rw [charTurnCount_eq_playerFile]

theorem charTurnCount_appendPlayerTurn (cs : List (String × PyVal)) (q : String)
    (n : Nat) (gm a o : String) (r : PyVal) (p : String) :
    charTurnCount (appendPlayerTurn cs q n gm a o r) p =
      if p = q then charTurnCount cs q + 1 else charTurnCount cs p := by
  obtain ⟨ts, hts, hlen⟩ := loadPlayerState_turns cs q
  by_cases hpq : p = q
  · subst hpq
    unfold appendPlayerTurn
    simp only [hts]
    unfold charTurnCount
    rw [dictGet?_dictSet_self]
    simp only [dictGet?_dictSet_ne _ "turns" "last_turn" _ (by decide),
      dictGet?_dictSetDefault_ne _ "turns" "name" _ (by decide),
      dictGet?_dictSet_self]
    simp [hlen]
    rfl
  · unfold appendPlayerTurn
    unfold charTurnCount
    rw [dictGet?_dictSet_ne _ _ _ _ hpq]
    simp [hpq]

theorem charTurnCount_foldl (F : List (String × PyVal) → String → List (String × PyVal))
    (hF : ∀ cs q p, charTurnCount (F cs q) p =
        if p = q then charTurnCount cs q + 1 else charTurnCount cs p) :
    ∀ (ps : List String), ps.Nodup →
      ∀ (cs : List (String × PyVal)) (p : String),
        charTurnCount (ps.foldl F cs) p =
          if p ∈ ps then charTurnCount cs p + 1 else charTurnCount cs p := by
  intro ps
  induction ps with
  | nil => intro _ cs p; simp
  | cons q rest ih =>
      intro hnd cs p
      have hnd2 := (List.nodup_cons.mp hnd).2
      have hqrest := (List.nodup_cons.mp hnd).1
      simp only [List.foldl_cons]
      rw [ih hnd2 _ p]
      by_cases hpq : p = q
      · subst hpq
        simp [hqrest, hF]
      · by_cases hpr : p ∈ rest
        · simp [hpr, hpq, hF, List.mem_cons]
        · simp [hpr, hpq, hF, List.mem_cons]

theorem mem_dedupStr (x : String) : ∀ l : List String, x ∈ dedupStr l ↔ x ∈ l := by
  intro l
  induction l with
  | nil => simp [dedupStr]
  | cons y rest ih =>
      simp only [dedupStr, List.mem_cons, List.mem_filter]
      constructor
      · rintro (h | ⟨h, _⟩)
        · exact Or.inl h
        · exact Or.inr (ih.mp h)
      · rintro (h | h)
        · exact Or.inl h
        · by_cases hxy : x = y
          · exact Or.inl hxy
          · exact Or.inr ⟨ih.mpr h, by simpa using hxy⟩

theorem nodup_dedupStr : ∀ l : List String, (dedupStr l).Nodup := by
  intro l
  induction l with
  | nil => simp [dedupStr]
  | cons y rest ih =>
      rw [dedupStr, List.nodup_cons]
      constructor
      · intro hmem
        have := (List.mem_filter.mp hmem).2
        simp at this
      · exact List.Nodup.filter _ ih

theorem perm_insertSorted (x : String) : ∀ l : List String, List.Perm (insertSorted x l) (x :: l) := by
  intro l
  induction l with
  | nil => simp [insertSorted]
  | cons y rest ih =>
      rw [insertSorted]
      by_cases h : strLt y x
      · simp only [h, if_true]
        exact List.Perm.trans (List.Perm.cons y ih) (List.Perm.swap x y rest)
      · simp [h]

theorem perm_sortStrings : ∀ l : List String, List.Perm (sortStrings l) l := by
  intro l
  induction l with
  | nil => exact List.Perm.refl _
  | cons y rest ih =>
      rw [sortStrings]
      exact List.Perm.trans (perm_insertSorted y _) (List.Perm.cons y ih)

theorem mem_sortStrings (x : String) (l : List String) : x ∈ sortStrings l ↔ x ∈ l :=
  (perm_sortStrings l).mem_iff

theorem nodup_sortStrings (l : List String) (h : l.Nodup) : (sortStrings l).Nodup :=
  ((perm_sortStrings l).nodup_iff).mpr h

theorem map_fst_pairs {β : Type} (l : List String) (f : String → β) :
    (l.map (fun p => (p, f p))).map Prod.fst = l := by
  induction l with
  | nil => rfl
  | cons x rest ih => simp [ih]

theorem processTurn_spec (inp : TPIn) (st : TPState) (res : TPResult) (st2 : TPState)
    (h : processTurn inp st = some (res, st2)) :
    res.players.map Prod.fst =
      sortStrings (dedupStr
        (dictKeys (normalizeMapping inp.playerActions) ++
         dictKeys (normalizeMapping inp.perPlayerOutcomes) ++
         dictKeys (inp.playerReflections.getD []))) ∧
    (∀ p : String,
      charTurnCount st2.chars p =
        if p ∈ res.players.map Prod.fst then charTurnCount st.chars p + 1
        else charTurnCount st.chars p) := by
  rcases st with ⟨sl, cs⟩
  cases sl with
  | dict kvs =>
      simp only [processTurn] at h
      rcases hg : getTurns (.dict kvs) with _ | turns
      · rw [hg] at h; cases h
      · rw [hg] at h
        simp only [Option.some.injEq, Prod.mk.injEq] at h
        obtain ⟨hres, hst2⟩ := h
        subst hres
        subst hst2
        refine ⟨map_fst_pairs _ _, ?_⟩
        intro p
        rw [map_fst_pairs]
        exact charTurnCount_foldl _
          (fun cs q p => charTurnCount_appendPlayerTurn cs q _ _ _ _ _ p) _
          (nodup_sortStrings _ (nodup_dedupStr _)) cs p
  | none => simp [processTurn] at h
  | int n => simp [processTurn] at h
  | str s => simp [processTurn] at h
  | list l => simp [processTurn] at h

theorem processTurn_step (inp : TPIn) (kvs : List (String × PyVal)) (ts : List PyVal)
    (cs : List (String × PyVal)) (hts : dictGet? kvs "turns" = some (.list ts)) :
    ∃ res st2, processTurn inp ⟨.dict kvs, cs⟩ = some (res, st2) ∧
      res.turn = ts.length + 1 ∧
      ∃ kvs2 ts2, st2.storyline = .dict kvs2 ∧
        dictGet? kvs2 "turns" = some (.list ts2) ∧ ts2.length = ts.length + 1 := by
  have hget : getTurns (.dict kvs) = some (ts.map normStoredTurn) := by
    simp [getTurns, dictGetD, hts]
  simp only [processTurn, hget]
  refine ⟨_, _, rfl, by simp, ?_⟩
  unfold updateTurns storylineSave
  simp only [dictGet?_dictSet_self]
  exact ⟨_, _, rfl, dictGet?_dictSet_self _ _ _, by simp⟩

theorem runTurns_spec : ∀ (inputs : List TPIn) (kvs : List (String × PyVal))
    (ts : List PyVal) (cs : List (String × PyVal)),
    dictGet? kvs "turns" = some (.list ts) →
    ∃ stf, runTurns inputs ⟨.dict kvs, cs⟩ =
        some (List.range' (ts.length + 1) inputs.length, stf) ∧
      ∃ kvs2 ts2, stf.storyline = .dict kvs2 ∧
        dictGet? kvs2 "turns" = some (.list ts2) ∧
        ts2.length = ts.length + inputs.length := by
  intro inputs
  induction inputs with
  | nil =>
      intro kvs ts cs hts
      exact ⟨_, rfl, kvs, ts, rfl, hts, by simp⟩
  | cons inp rest ih =>
      intro kvs ts cs hts
      obtain ⟨res, st2, hpt, hturn, kvs2, ts2, hsl, hts2, hlen2⟩ :=
        processTurn_step inp kvs ts cs hts
      rcases st2 with ⟨sl2, cs2⟩
      simp only at hsl
      subst hsl
      obtain ⟨stf, hrun, kvs3, ts3, hsl3, hts3, hlen3⟩ := ih kvs2 ts2 cs2 hts2
      refine ⟨stf, ?_, kvs3, ts3, hsl3, hts3, by simp only [List.length_cons]; omega⟩
      simp only [runTurns, hpt, hrun, List.length_cons]
      rw [hturn, hlen2, List.range'_succ]

/-- Claim C1: starting from a freshly initialized (empty) shared ledger
and any character storage, `N` successive `process_turn` calls all succeed
and return the turn numbers `1, 2, ..., N` in order — each call computes
its number as the stored turn count plus one and appends exactly one
entry, leaving `N` turns stored at the end, regardless of which
participants each call impacts. -/
theorem turn_numbers_sequential (inputs : List TPIn) (chars0 : List (String × PyVal)) :
    ∃ stf, runTurns inputs ⟨emptyLedger, chars0⟩ =
        some (List.range' 1 inputs.length, stf) ∧
      ledgerTurnCount stf.storyline = some inputs.length := by
  obtain ⟨stf, hrun, kvs2, ts2, hsl, hts, hlen⟩ :=
    runTurns_spec inputs
      [("title", PyVal.str ""), ("summary", PyVal.str ""), ("turns", PyVal.list [])]
      [] chars0 rfl
  refine ⟨stf, hrun, ?_⟩
  rw [hsl]
  simp only [ledgerTurnCount, dictGetD, hts]
  simp only [List.length_nil] at hlen
  simp [hlen]

/-- Claim C5: in every successful `process_turn` call the impacted
participant set (the keys of the returned `players` mapping) is exactly
the union of the normalized action keys, the normalized outcome keys, and
the raw reflection keys, and every impacted participant — including one
appearing only in reflections — receives exactly one appended
`PlayerTurnRecord`; in the documented scenario the turn number is 1, the
impacted participants are `{"A", "B"}`, and the shared entry content
is `"S"`. -/
theorem impacted_union_and_scenario :
    (∀ (inp : TPIn) (st : TPState) (res : TPResult) (st2 : TPState),
        processTurn inp st = some (res, st2) →
        ∀ p : String,
          (p ∈ res.players.map Prod.fst ↔
            p ∈ dictKeys (normalizeMapping inp.playerActions) ∨
            p ∈ dictKeys (normalizeMapping inp.perPlayerOutcomes) ∨
            p ∈ dictKeys (inp.playerReflections.getD [])) ∧
          (p ∈ res.players.map Prod.fst →
            charTurnCount st2.chars p = charTurnCount st.chars p + 1)) ∧
    (processTurn scenarioC5 startState).map (fun r => (r.1.turn, r.1.players.map Prod.fst)) =
      some (1, ["A", "B"]) ∧
    (processTurn scenarioC5 startState).map (fun r => entryContentOf r.1.entry) =
      some (.str "S") := by
  refine ⟨?_, by decide, rfl⟩
  intro inp st res st2 h p
  obtain ⟨hkeys, hcount⟩ := processTurn_spec inp st res st2 h
  constructor
  · rw [hkeys, mem_sortStrings, mem_dedupStr]
    simp [List.mem_append, or_assoc]
  · intro hmem
    rw [hcount p, if_pos hmem]

theorem impacted_union_witness :
    (("A" : String) ∈ c5run.1.players.map Prod.fst ↔
      "A" ∈ dictKeys (normalizeMapping scenarioC5.playerActions) ∨
      "A" ∈ dictKeys (normalizeMapping scenarioC5.perPlayerOutcomes) ∨
      "A" ∈ dictKeys (scenarioC5.playerReflections.getD [])) ∧
    (("A" : String) ∈ c5run.1.players.map Prod.fst →
      charTurnCount c5run.2.chars "A" = charTurnCount startState.chars "A" + 1) :=
  impacted_union_and_scenario.1 scenarioC5 startState c5run.1 c5run.2 rfl "A"

/-- Claim C9: `process_turn` does not normalize reflection keys — every
raw reflection key, even one blank after trimming or differing from an
action key only by whitespace, enters the impacted set unchanged and
triggers a participant-ledger append under that raw key; in the C9
scenario the impacted set is `[" ", " A ", "A"]` while the action key
`" A "` was trimmed to `"A"`. -/
theorem reflections_keys_not_normalized :
    (∀ (inp : TPIn) (st : TPState) (res : TPResult) (st2 : TPState),
        processTurn inp st = some (res, st2) →
        ∀ p ∈ dictKeys (inp.playerReflections.getD []),
          p ∈ res.players.map Prod.fst ∧
          charTurnCount st2.chars p = charTurnCount st.chars p + 1) ∧
    (processTurn scenarioC9 startState).map (fun r => r.1.players.map Prod.fst) =
      some [" ", " A ", "A"] ∧
    pyStrip " " = "" ∧ pyStrip " A " = "A" ∧
    dictKeys (normalizeMapping scenarioC9.playerActions) = ["A"] := by
  refine ⟨?_, by decide, by decide, by decide, by decide⟩
  intro inp st res st2 h p hp
  obtain ⟨hkeys, hcount⟩ := processTurn_spec inp st res st2 h
  have hmem : p ∈ res.players.map Prod.fst := by
    rw [hkeys, mem_sortStrings, mem_dedupStr]
    simp only [List.mem_append]
    exact Or.inr hp
  exact ⟨hmem, by rw [hcount p, if_pos hmem]⟩

theorem reflections_keys_witness :
    ((" " : String) ∈ c9run.1.players.map Prod.fst ∧
      charTurnCount c9run.2.chars " " = charTurnCount startState.chars " " + 1) :=
  reflections_keys_not_normalized.1 scenarioC9 startState c9run.1 c9run.2 rfl " "
    (by decide)

theorem ne_nil_of_not_isEmpty {α : Type} (l : List α) (h : (!l.isEmpty) = true) :
    l ≠ [] := by
  intro hl
  subst hl
  simp at h

theorem not_isEmpty_of_ne_nil {α : Type} (l : List α) (h : l ≠ []) :
    (!l.isEmpty) = true := by
  cases l with
  | nil => exact absurd rfl h
  | cons a t => rfl

theorem cost_append (a b : List String) : cost (a ++ b) = cost a + cost b := by
  unfold cost
  simp [List.length_append]
  ring

theorem cost_cons (x : String) (t : List String) :
    cost (x :: t) = x.length + 2 + cost t := by
  unfold cost
  simp [List.length_cons]
  ring

theorem cost_single (x : String) : cost [x] = x.length + 2 := by
  unfold cost; simp

theorem cost_nil : cost [] = 0 := rfl

theorem joinWith_append_ne (sep : String) :
    ∀ (a b : List String), a ≠ [] → b ≠ [] →
      joinWith sep (a ++ b) = joinWith sep a ++ sep ++ joinWith sep b := by
  intro a
  induction a with
  | nil => intro b h _; exact absurd rfl h
  | cons x a2 ih =>
      intro b _ hb
      cases a2 with
      | nil =>
          cases b with
          | nil => exact absurd rfl hb
          | cons y b2 => simp [joinWith]
      | cons z a3 =>
          have h3 := ih b (by simp) hb
          simp only [List.cons_append, List.append_eq, joinWith] at h3 ⊢
          rw [h3]
          simp [String.append_assoc]

theorem joinWith_length_cost (G : List String) (h : G ≠ []) :
    (joinWith "\n\n" G).length + 2 = cost G := by
  induction G with
  | nil => exact absurd rfl h
  | cons x t ih =>
      cases t with
      | nil => simp [joinWith, cost_single]
      | cons y t2 =>
          have h2 := ih (by simp)
          have hsep : ("\n\n" : String).length = 2 := rfl
          rw [cost_cons]
          simp only [joinWith] at h2 ⊢
          rw [String.length_append, String.length_append]
          omega

theorem gg_flatten (B : Nat) : ∀ (ss : List String) (cur : List String),
    (gg B ss cur).flatten = cur ++ ss := by
  intro ss
  induction ss with
  | nil =>
      intro cur
      by_cases h : cur.isEmpty
      · simp [gg, h, List.isEmpty_iff.mp h]
      · simp [gg, h]
  | cons s rest ih =>
      intro cur
      rw [gg]
      by_cases h : (!cur.isEmpty) = true ∧ cost cur + s.length + 2 > B
      · rw [if_pos h]
        simp only [List.flatten_cons]
        rw [ih]
        simp
      · rw [if_neg h]
        rw [ih]
        simp

theorem gg_nonempty (B : Nat) : ∀ (ss cur : List String) (G : List String),
    G ∈ gg B ss cur → G ≠ [] := by
  intro ss
  induction ss with
  | nil =>
      intro cur G hG
      by_cases h : cur.isEmpty
      · simp [gg, h] at hG
      · simp only [gg, h, if_false, Bool.false_eq_true, List.mem_singleton] at hG
        subst hG
        exact ne_nil_of_not_isEmpty _ (by simpa using h)
  | cons s rest ih =>
      intro cur G hG
      rw [gg] at hG
      by_cases h : (!cur.isEmpty) = true ∧ cost cur + s.length + 2 > B
      · rw [if_pos h] at hG
        rcases List.mem_cons.mp hG with hc | hc
        · subst hc
          exact ne_nil_of_not_isEmpty _ h.1
        · exact ih [s] G hc
      · rw [if_neg h] at hG
        exact ih (cur ++ [s]) G hG

theorem gg_feas (B : Nat) : ∀ (ss cur : List String),
    (cur = [] ∨ cur.length = 1 ∨ cost cur ≤ B) →
    ∀ G ∈ gg B ss cur, G.length = 1 ∨ cost G ≤ B := by
  intro ss
  induction ss with
  | nil =>
      intro cur hI G hG
      by_cases h : cur.isEmpty
      · simp [gg, h] at hG
      · simp only [gg, h, if_false, Bool.false_eq_true, List.mem_singleton] at hG
        subst hG
        rcases hI with h0 | h1
        · subst h0; simp at h
        · exact h1
  | cons s rest ih =>
      intro cur hI G hG
      rw [gg] at hG
      by_cases h : (!cur.isEmpty) = true ∧ cost cur + s.length + 2 > B
      · rw [if_pos h] at hG
        rcases List.mem_cons.mp hG with hc | hc
        · subst hc
          rcases hI with h0 | h1
          · subst h0; simp at h
          · exact h1
        · exact ih [s] (Or.inr (Or.inl rfl)) G hc
      · rw [if_neg h] at hG
        refine ih (cur ++ [s]) ?_ G hG
        by_cases hc : cur = []
        · subst hc
          exact Or.inr (Or.inl rfl)
        · right; right
          have hne := not_isEmpty_of_ne_nil cur hc
          have hle : ¬(cost cur + s.length + 2 > B) := fun hgt => h ⟨hne, hgt⟩
          rw [cost_append, cost_single]
          omega

theorem chunkGo_eq_gg (B : Nat) : ∀ (rest chunks cur : List String),
    (∀ s ∈ rest, pyStrip s = s ∧ s ≠ "" ∧ s.length < B) →
    chunkGo B rest chunks cur (cost cur) =
      chunks ++ (gg B rest cur).map (joinWith "\n\n") := by
  intro rest
  induction rest with
  | nil =>
      intro chunks cur _
      rw [chunkGo, gg]
      by_cases h : cur.isEmpty
      · simp [h]
      · simp [h]
  | cons s tail ih =>
      intro chunks cur hall
      obtain ⟨hstrip, hne, hlen⟩ := hall s (List.mem_cons_self s tail)
      have htail := fun x hx => hall x (List.mem_cons_of_mem s hx)
      rw [chunkGo, gg, hstrip]
      rw [if_neg hne]
      have hnotbig : ¬(s.length > B) := by omega
      rw [if_neg hnotbig]
      by_cases hcur : cur.isEmpty
      · have hc0 : cur = [] := List.isEmpty_iff.mp hcur
        subst hc0
        have hcond1 : ¬((!List.isEmpty ([] : List String)) = true ∧
            cost ([] : List String) + (s.length + (if List.isEmpty ([] : List String) then 0 else 2)) > B) := by
          simp
        have hcond2 : ¬((!List.isEmpty ([] : List String)) = true ∧
            cost ([] : List String) + s.length + 2 > B) := by
          simp
        rw [if_neg hcond1, if_neg hcond2]
        have he : cost ([] : List String) + s.length + 2 = cost ([] ++ [s]) := by
          rw [cost_append, cost_single, cost_nil]
          omega
        rw [he, ih _ _ htail]
      · have hcne : (!cur.isEmpty) = true := by simp [hcur]
        by_cases hbig : cost cur + s.length + 2 > B
        · have h1 : (!cur.isEmpty) = true ∧
              cost cur + (s.length + (if cur.isEmpty then 0 else 2)) > B := by
            refine ⟨hcne, ?_⟩
            rw [if_neg hcur]
            omega
          rw [if_pos h1, if_pos ⟨hcne, hbig⟩]
          have hc : s.length + 2 = cost [s] := (cost_single s).symm
          rw [hc, ih _ _ htail]
          simp [List.map_cons]
        · have h1 : ¬((!cur.isEmpty) = true ∧
              cost cur + (s.length + (if cur.isEmpty then 0 else 2)) > B) := by
            intro hh
            apply hbig
            rw [if_neg hcur] at hh
            omega
          rw [if_neg h1, if_neg (fun hh => hbig hh.2)]
          have he : cost cur + s.length + 2 = cost (cur ++ [s]) := by
            rw [cost_append, cost_single]
            omega
          rw [he, ih _ _ htail]

theorem chunkSummaries_eq_gg (B : Nat) (ss : List String)
    (h : ∀ s ∈ ss, pyStrip s = s ∧ s ≠ "" ∧ s.length < B) :
    chunkSummaries B ss = (gg B ss []).map (joinWith "\n\n") := by
  unfold chunkSummaries
  have := chunkGo_eq_gg B ss [] [] h
  rw [cost_nil] at this
  simpa using this

theorem feas_suffix (B : Nat) (d G2 : List String) (hne : G2 ≠ [])
    (hfeas : (d ++ G2).length = 1 ∨ cost (d ++ G2) ≤ B) :
    G2.length = 1 ∨ cost G2 ≤ B := by
  rcases hfeas with h1 | h1
  · left
    rw [List.length_append] at h1
    have : 1 ≤ G2.length := List.length_pos.mpr hne
    omega
  · right
    rw [cost_append] at h1
    omega

theorem chop (B : Nat) : ∀ (P : List (List String)) (d xs : List String),
    P.flatten = d ++ xs →
    (∀ G ∈ P, G ≠ [] ∧ (G.length = 1 ∨ cost G ≤ B)) →
    ∃ Q : List (List String), Q.flatten = xs ∧
      (∀ G ∈ Q, G ≠ [] ∧ (G.length = 1 ∨ cost G ≤ B)) ∧
      Q.length ≤ P.length := by
  intro P
  induction P with
  | nil =>
      intro d xs hflat _
      have : xs = [] := by
        have h0 : d ++ xs = [] := by
          rw [← hflat]
          simp
        exact (List.append_eq_nil.mp h0).2
      subst this
      exact ⟨[], rfl, by simp, by simp⟩
  | cons G P2 ih =>
      intro d xs hflat hfeas
      simp only [List.flatten_cons] at hflat
      by_cases hlen : G.length ≤ d.length
      · -- G consumed inside d
        have htake : G = d.take G.length := by
          have h1 : (G ++ P2.flatten).take G.length = G := by
            simp [List.take_left]
          rw [hflat] at h1
          rw [List.take_append_of_le_length hlen] at h1
          exact h1.symm
        have hdrop : P2.flatten = d.drop G.length ++ xs := by
          have h1 : (G ++ P2.flatten).drop G.length = P2.flatten := by
            simp [List.drop_left]
          rw [hflat] at h1
          rw [List.drop_append_of_le_length hlen] at h1
          exact h1.symm
        obtain ⟨Q, hQf, hQfeas, hQlen⟩ := ih (d.drop G.length) xs hdrop
          (fun G2 hG2 => hfeas G2 (List.mem_cons_of_mem G hG2))
        exact ⟨Q, hQf, hQfeas, Nat.le_succ_of_le hQlen⟩
      · -- G straddles into xs
        push_neg at hlen
        have hdle : d.length ≤ G.length := Nat.le_of_lt hlen
        have htake : d = G.take d.length := by
          have h1 : (d ++ xs).take d.length = d := by
            simp [List.take_left]
          rw [← hflat] at h1
          rw [List.take_append_of_le_length hdle] at h1
          exact h1.symm
        have hxs : xs = G.drop d.length ++ P2.flatten := by
          have h1 : (d ++ xs).drop d.length = xs := by
            simp [List.drop_left]
          rw [← hflat] at h1
          rw [List.drop_append_of_le_length hdle] at h1
          exact h1.symm
        have hG2ne : G.drop d.length ≠ [] := by
          intro hd
          have := congrArg List.length hd
          simp only [List.length_drop, List.length_nil] at this
          omega
        have hGdec : G = G.take d.length ++ G.drop d.length := (List.take_append_drop _ _).symm
        have hfG := hfeas G (List.mem_cons_self G P2)
        have hfeasG2 : (G.drop d.length).length = 1 ∨ cost (G.drop d.length) ≤ B := by
          apply feas_suffix B (G.take d.length) (G.drop d.length) hG2ne
          rw [← hGdec]
          exact hfG.2
        refine ⟨G.drop d.length :: P2, ?_, ?_, by simp⟩
        · simp only [List.flatten_cons]
          exact hxs.symm
        · intro G2 hG2
          rcases List.mem_cons.mp hG2 with hc | hc
          · subst hc
            exact ⟨hG2ne, hfeasG2⟩
          · exact hfeas G2 (List.mem_cons_of_mem G hc)

theorem gg_opt (B : Nat) : ∀ (ss cur : List String) (P : List (List String)),
    P.flatten = cur ++ ss →
    (∀ G ∈ P, G ≠ [] ∧ (G.length = 1 ∨ cost G ≤ B)) →
    (gg B ss cur).length ≤ P.length := by
  intro ss
  induction ss with
  | nil =>
      intro cur P hflat hfeas
      rw [gg]
      by_cases h : cur.isEmpty
      · simp [h]
      · rw [if_neg h]
        have hcur : cur ≠ [] := ne_nil_of_not_isEmpty _ (by simpa using h)
        cases P with
        | nil =>
            exfalso
            apply hcur
            have : cur ++ [] = [] := by rw [← hflat]; simp
            simpa using this
        | cons G P2 => simp
  | cons s rest ih =>
      intro cur P hflat hfeas
      rw [gg]
      by_cases hcond : (!cur.isEmpty) = true ∧ cost cur + s.length + 2 > B
      · rw [if_pos hcond]
        have hcurne : cur ≠ [] := ne_nil_of_not_isEmpty _ hcond.1
        cases P with
        | nil =>
            exfalso
            apply hcurne
            have : cur ++ s :: rest = [] := by rw [← hflat]; simp
            exact (List.append_eq_nil.mp this).1
        | cons G1 P2 =>
            simp only [List.flatten_cons] at hflat
            by_cases hlen : G1.length ≤ cur.length
            · -- G1 inside cur
              have hdrop : P2.flatten = cur.drop G1.length ++ (s :: rest) := by
                have h1 : (G1 ++ P2.flatten).drop G1.length = P2.flatten := by
                  simp [List.drop_left]
                rw [hflat] at h1
                rw [List.drop_append_of_le_length hlen] at h1
                exact h1.symm
              obtain ⟨Q, hQf, hQfeas, hQlen⟩ := chop B P2 (cur.drop G1.length) (s :: rest)
                hdrop (fun G hG => hfeas G (List.mem_cons_of_mem G1 hG))
              have hQ : (gg B rest [s]).length ≤ Q.length := by
                apply ih [s] Q
                · simpa using hQf
                · exact hQfeas
              simp only [List.length_cons]
              omega
            · -- G1 straddles: contradiction with flush condition
              exfalso
              push_neg at hlen
              have hdle : cur.length ≤ G1.length := Nat.le_of_lt hlen
              have hG2 : G1.drop cur.length ++ P2.flatten = s :: rest := by
                have h1 : (cur ++ s :: rest).drop cur.length = s :: rest := by
                  simp [List.drop_left]
                rw [← hflat] at h1
                rw [List.drop_append_of_le_length hdle] at h1
                exact h1
              have hG2ne : G1.drop cur.length ≠ [] := by
                intro hd
                have := congrArg List.length hd
                simp only [List.length_drop, List.length_nil] at this
                omega
              -- head of the dropped part is s
              obtain ⟨g, grest, hgr⟩ := List.exists_cons_of_ne_nil hG2ne
              have hgs : g = s := by
                rw [hgr] at hG2
                simpa using congrArg (fun l => l.headI) hG2
              -- cost of G1 exceeds B
              have hcost : cost G1 = cost (G1.take cur.length) + cost (G1.drop cur.length) := by
                conv_lhs => rw [← List.take_append_drop cur.length G1]
                rw [cost_append]
              have htake : G1.take cur.length = cur := by
                have h1 : (cur ++ s :: rest).take cur.length = cur := by
                  simp [List.take_left]
                rw [← hflat] at h1
                rw [List.take_append_of_le_length hdle] at h1
                exact h1
              have hcostG2 : cost (G1.drop cur.length) ≥ s.length + 2 := by
                rw [hgr, hgs, cost_cons]
                omega
              have hfG1 := hfeas G1 (List.mem_cons_self G1 P2)
              have hlenG1 : G1.length ≥ 2 := by
                have h1 : 1 ≤ cur.length := List.length_pos.mpr hcurne
                have h2 : 1 ≤ (G1.drop cur.length).length := List.length_pos.mpr hG2ne
                rw [List.length_drop] at h2
                omega
              rcases hfG1.2 with h1 | h1
              · omega
              · rw [hcost, htake] at h1
                have := hcond.2
                omega
      · rw [if_neg hcond]
        apply ih (cur ++ [s]) P
        · rw [hflat]
          simp
        · exact hfeas

theorem joinWith_map_flatten (P : List (List String)) (hne : ∀ G ∈ P, G ≠ []) :
    joinWith "\n\n" (P.map (joinWith "\n\n")) = joinWith "\n\n" P.flatten := by
  induction P with
  | nil => rfl
  | cons G P2 ih =>
      cases P2 with
      | nil => simp [joinWith]
      | cons H t =>
          have hG := hne G (List.mem_cons_self G (H :: t))
          have hH := hne H (List.mem_cons_of_mem G (List.mem_cons_self H t))
          have hrest : ∀ G2 ∈ H :: t, G2 ≠ [] :=
            fun G2 hG2 => hne G2 (List.mem_cons_of_mem G hG2)
          have hflatne : (H :: t).flatten ≠ [] := by
            simp only [List.flatten_cons]
            intro hc
            exact hH (List.append_eq_nil.mp hc).1
          simp only [List.map_cons, List.flatten_cons]
          have hmapne : (joinWith "\n\n" H) :: (t.map (joinWith "\n\n")) ≠ [] := by simp
          calc joinWith "\n\n" (joinWith "\n\n" G :: joinWith "\n\n" H :: t.map (joinWith "\n\n"))
              = joinWith "\n\n" G ++ "\n\n" ++
                  joinWith "\n\n" (joinWith "\n\n" H :: t.map (joinWith "\n\n")) := by
                rw [joinWith]
            _ = joinWith "\n\n" G ++ "\n\n" ++ joinWith "\n\n" ((H :: t).flatten) := by
                have := ih hrest
                simp only [List.map_cons] at this
                rw [this]
            _ = joinWith "\n\n" (G ++ (H :: t).flatten) := by
                rw [joinWith_append_ne "\n\n" G ((H :: t).flatten) hG hflatne]
  
/-- Claim C2 (amended): for trimmed non-blank summaries each shorter than
the budget `B`, every produced chunk stays within `B`, joining the chunks
reproduces the joined summaries in order, and the chunk count is minimal
among partitions of the summaries into consecutive non-empty groups that
are single blocks or satisfy the loop's effective capacity
`cost G ≤ B` (joined length at most `B - 2`) — the capacity the loop
actually enforces, which is stricter by one separator allowance than the
budget `B` the original claim asserts. -/
theorem chunk_summaries_amended (B : Nat) (ss : List String)
    (h : ∀ s ∈ ss, pyStrip s = s ∧ s ≠ "" ∧ s.length < B) :
    (∀ c ∈ chunkSummaries B ss, c.length ≤ B) ∧
    joinWith "\n\n" (chunkSummaries B ss) = joinWith "\n\n" ss ∧
    (∀ P : List (List String), P.flatten = ss →
      (∀ G ∈ P, G ≠ [] ∧ (G.length = 1 ∨ cost G ≤ B)) →
      (chunkSummaries B ss).length ≤ P.length) := by
  have heq := chunkSummaries_eq_gg B ss h
  refine ⟨?_, ?_, ?_⟩
  · intro c hc
    rw [heq] at hc
    obtain ⟨G, hG, rfl⟩ := List.mem_map.mp hc
    have hGne := gg_nonempty B ss [] G hG
    rcases gg_feas B ss [] (Or.inl rfl) G hG with h1 | h1
    · obtain ⟨x, rfl⟩ := List.length_eq_one.mp h1
      have hx : x ∈ ss := by
        have hm : x ∈ (gg B ss []).flatten := List.mem_flatten.mpr ⟨[x], hG, by simp⟩
        rw [gg_flatten B ss []] at hm
        simpa using hm
      have := (h x hx).2.2
      show (joinWith "\n\n" [x]).length ≤ B
      simp only [joinWith]
      omega
    · have := joinWith_length_cost G hGne
      omega
  · rw [heq]
    rw [joinWith_map_flatten _ (gg_nonempty B ss [])]
    rw [gg_flatten B ss []]
    simp
  · intro P hPf hPfeas
    rw [heq, List.length_map]
    exact gg_opt B ss [] P (by simpa using hPf) hPfeas

/-- Claim C2 (counterexample): two rendered summaries of length 10 whose
joined length is exactly the budget 22 fit in one chunk under the claimed
budget-`B` policy, yet `_chunk_summaries` emits two chunks — its running
counter includes a separator allowance after the last block, so the
produced count is not the greedy-minimal count for budget `B`. -/
theorem chunking_counterexample :
    prepareTurnSummaries [.dict [("content", .str "aa")], .dict [("content", .str "bb")]] =
      ["Turn 1: aa", "Turn 2: bb"] ∧
    (∀ s ∈ (["Turn 1: aa", "Turn 2: bb"] : List String),
      pyStrip s = s ∧ s ≠ "" ∧ s.length < 22) ∧
    (joinWith "\n\n" ["Turn 1: aa", "Turn 2: bb"]).length ≤ 22 ∧
    chunkSummaries 22 ["Turn 1: aa", "Turn 2: bb"] = ["Turn 1: aa", "Turn 2: bb"] ∧
    (chunkSummaries 22 ["Turn 1: aa", "Turn 2: bb"]).length = 2 := by
  refine ⟨by decide, by decide, by decide, by decide, by decide⟩

theorem chunk_summaries_amended_witness :
    ((∀ c ∈ chunkSummaries 10 ["aaa", "bbb"], c.length ≤ 10) ∧
     joinWith "\n\n" (chunkSummaries 10 ["aaa", "bbb"]) = joinWith "\n\n" ["aaa", "bbb"] ∧
     (∀ P : List (List String), P.flatten = ["aaa", "bbb"] →
       (∀ G ∈ P, G ≠ [] ∧ (G.length = 1 ∨ cost G ≤ 10)) →
       (chunkSummaries 10 ["aaa", "bbb"]).length ≤ P.length)) ∧
    (chunkSummaries 10 ["aaa", "bbb"]).length ≤ ([[("aaa" : String), "bbb"]]).length := by
  have h := chunk_summaries_amended 10 ["aaa", "bbb"] (by decide)
  exact ⟨h, h.2.2 [["aaa", "bbb"]] (by decide) (by decide)⟩

end BookPipeline
